import Mathlib

/-!
Shallow embedding of the uGit simulator (src/git.h: git.h + git.c).

The C program keeps three pieces of global state: a singly linked list of
staged file names (`file_list`, head = most recently added), a singly linked
list of commits (`commit_list`, head = newest), and a flag
`is_repo_initialized`.  A `FileNode` holds only a file name, so the staging
area is modelled as a `List String` in traversal order.  A `commitGit` holds
an array of up to `MAX_FILES` copied file names plus a message; it is
modelled as a list of the names actually copied by `commit` (the C array
slots past the copied prefix hold no string written by the program and read
as empty in this model) together with the message.

Every string stored by the program goes through
`strncpy(dst, src, MAX_ARG_LENGTH); dst[MAX_ARG_LENGTH - 1] = 0;`,
which stores exactly the first `MAX_ARG_LENGTH - 1` characters of the
source; this is `truncArg`.

Each C function that mutates the globals is modelled as a function from the
state to (return value, new state); `log_commits` and `list_files` also
return the sequence of lines they print.
-/

namespace UGit

def MAX_ARG_LENGTH : Nat := 50

def MAX_FILES : Nat := 10

/-- `strncpy` into a `char[MAX_ARG_LENGTH]` followed by forcing the final
byte to NUL stores exactly the first `MAX_ARG_LENGTH - 1` characters. -/
def truncArg (s : String) : String := ⟨s.data.take (MAX_ARG_LENGTH - 1)⟩

/-- `commitGit`: the file names copied from the staging list (at most
`MAX_FILES` of them, in staging traversal order) and the commit message. -/
structure Commit where
  archivos : List String
  mensaje : String
deriving DecidableEq, Repr

/-- The global state of git.c: `file_list`, `commit_list`,
`is_repo_initialized`.  (`version_list` is declared in the C file but never
used by any operation, so it is omitted.) -/
structure RepoState where
  file_list : List String
  commit_list : List Commit
  is_repo_initialized : Bool
deriving DecidableEq, Repr

/-- The state at program start: both lists NULL, flag 0. -/
def initialState : RepoState := ⟨[], [], false⟩

/-- `init_repo`: sets the flag; returns 0 whether or not it was already set. -/
def init_repo (s : RepoState) : Int × RepoState :=
  if s.is_repo_initialized then (0, s)
  else (0, { s with is_repo_initialized := true })

/-- `check_repo_initialized`: 1 if initialized, 0 otherwise. -/
def check_repo_initialized (s : RepoState) : Bool := s.is_repo_initialized

/-- The in-place overwrite in `add_file`: the first node whose name equals
`target` gets `repl` written into it; the rest of the list is untouched. -/
def replaceFirst (target repl : String) : List String → List String
  | [] => []
  | f :: fs => if f = target then repl :: fs else f :: replaceFirst target repl fs

/-- The unlink loop of `remove_file`: `none` when no node matches, otherwise
the list with the first matching node removed. -/
def removeFirst (target : String) : List String → Option (List String)
  | [] => none
  | f :: fs =>
      if f = target then some fs
      else (removeFirst target fs).map (fun l => f :: l)

/-- `add_file`: requires the repository initialized.  Scans the staging list
comparing each stored name with the (untruncated) argument; on a match it
overwrites that node with the truncated argument and returns 0; otherwise it
prepends a new node carrying the truncated argument and returns 0. -/
def add_file (filename : String) (s : RepoState) : Int × RepoState :=
  if check_repo_initialized s then
    if filename ∈ s.file_list then
      (0, { s with file_list := replaceFirst filename (truncArg filename) s.file_list })
    else
      (0, { s with file_list := truncArg filename :: s.file_list })
  else (-1, s)

/-- `remove_file`: requires the repository initialized.  Unlinks the first
node whose stored name equals the argument; returns -1 when none matches. -/
def remove_file (filename : String) (s : RepoState) : Int × RepoState :=
  if check_repo_initialized s then
    match removeFirst filename s.file_list with
    | none => (-1, s)
    | some l => (0, { s with file_list := l })
  else (-1, s)

/-- `commit`: requires the repository initialized.  Copies the first
`MAX_FILES` staged names (in traversal order, each through `strncpy`
truncation) and the truncated message into a new commit placed at the head
of `commit_list`. -/
def commit (mensaje : String) (s : RepoState) : Int × RepoState :=
  if check_repo_initialized s then
    let c : Commit :=
      { archivos := (s.file_list.take MAX_FILES).map truncArg
        mensaje := truncArg mensaje }
    (0, { s with commit_list := c :: s.commit_list })
  else (-1, s)

/-- `log_commits`: requires the repository initialized.  Prints the commit
messages from the head of `commit_list` (newest first); modelled as
returning that sequence. -/
def log_commits (s : RepoState) : Int × List String × RepoState :=
  if check_repo_initialized s then
    (0, s.commit_list.map (fun c => c.mensaje), s)
  else (-1, [], s)

/-- The restore loop of `checkout_commit`: for `i = 0 .. MAX_FILES - 1`, each
stored name with `strlen > 0` is copied (through `strncpy` truncation) into a
fresh node pushed onto the FRONT of the (emptied) staging list. -/
def restoreFiles (c : Commit) : List String :=
  (c.archivos.filter (fun f => f ≠ "")).foldl (fun acc f => truncArg f :: acc) []

/-- `checkout_commit`: requires the repository initialized.  Searches
`commit_list` from the head for the first commit whose message equals the
argument; if none matches it returns -1 leaving the state alone; otherwise
it frees the whole staging list and rebuilds it via `restoreFiles`. -/
def checkout_commit (commit_id : String) (s : RepoState) : Int × RepoState :=
  if check_repo_initialized s then
    match s.commit_list.find? (fun c => c.mensaje == commit_id) with
    | none => (-1, s)
    | some c => (0, { s with file_list := restoreFiles c })
  else (-1, s)

/-- `list_files`: requires the repository initialized.  Prints the staged
names in traversal order; modelled as returning that sequence. -/
def list_files (s : RepoState) : Int × List String × RepoState :=
  if check_repo_initialized s then
    (0, s.file_list, s)
  else (-1, [], s)

end UGit

namespace UGit

/-! Helper lemmas about the embedded operations. -/

theorem truncArg_eq_self {s : String} (h : s.length ≤ MAX_ARG_LENGTH - 1) :
    truncArg s = s := by
  cases s with
  | mk data =>
    have hd : data.length ≤ MAX_ARG_LENGTH - 1 := h
    simp only [truncArg]
    exact congrArg String.mk (List.take_of_length_le hd)

theorem truncArg_length (s : String) : (truncArg s).length ≤ MAX_ARG_LENGTH - 1 := by
  cases s with
  | mk data =>
    show (data.take (MAX_ARG_LENGTH - 1)).length ≤ MAX_ARG_LENGTH - 1
    rw [List.length_take]
    exact min_le_left _ _

theorem map_truncArg_eq_self {l : List String}
    (h : ∀ f ∈ l, f.length ≤ MAX_ARG_LENGTH - 1) : l.map truncArg = l := by
  induction l with
  | nil => rfl
  | cons a t ih =>
    simp only [List.map_cons, truncArg_eq_self (h a (List.mem_cons_self a t)),
      ih (fun f hf => h f (List.mem_cons_of_mem a hf))]

theorem foldl_push_front (g : String → String) :
    ∀ (l acc : List String),
      l.foldl (fun a f => g f :: a) acc = (l.map g).reverse ++ acc
  | [], _ => rfl
  | f :: fs, acc => by
    simp only [List.foldl_cons, foldl_push_front g fs (g f :: acc), List.map_cons,
      List.reverse_cons, List.append_assoc, List.singleton_append]

theorem restoreFiles_eq (c : Commit) :
    restoreFiles c = ((c.archivos.filter (fun f => f ≠ "")).map truncArg).reverse := by
  simp only [restoreFiles, foldl_push_front, List.append_nil]

theorem replaceFirst_self (t : String) : ∀ l : List String, replaceFirst t t l = l
  | [] => rfl
  | f :: fs => by
    by_cases h : f = t
    · simp [replaceFirst, h]
    · simp [replaceFirst, h, replaceFirst_self t fs]

theorem mem_replaceFirst {t r f : String} :
    ∀ {l : List String}, f ∈ replaceFirst t r l → f = r ∨ f ∈ l := by
  intro l
  induction l with
  | nil => intro h; exact absurd h (by simp [replaceFirst])
  | cons a as ih =>
    intro h
    by_cases ha : a = t
    · simp only [replaceFirst, if_pos ha, List.mem_cons] at h
      rcases h with h | h
      · exact Or.inl h
      · exact Or.inr (List.mem_cons_of_mem a h)
    · simp only [replaceFirst, if_neg ha, List.mem_cons] at h
      rcases h with h | h
      · exact Or.inr (h ▸ List.mem_cons_self a as)
      · rcases ih h with h2 | h2
        · exact Or.inl h2
        · exact Or.inr (List.mem_cons_of_mem a h2)

theorem removeFirst_eq_none {t : String} :
    ∀ {l : List String}, t ∉ l → removeFirst t l = none := by
  intro l
  induction l with
  | nil => intro _; rfl
  | cons a as ih =>
    intro h
    have ha : a ≠ t := fun hat => h (hat ▸ List.mem_cons_self a as)
    have has : t ∉ as := fun hm => h (List.mem_cons_of_mem a hm)
    simp [removeFirst, ha, ih has]

theorem removeFirst_isSome {t : String} :
    ∀ {l : List String}, t ∈ l → ∃ l2, removeFirst t l = some l2 := by
  intro l
  induction l with
  | nil => intro h; exact absurd h (List.not_mem_nil t)
  | cons a as ih =>
    intro h
    by_cases ha : a = t
    · exact ⟨as, by simp [removeFirst, ha]⟩
    · have hm : t ∈ as := by
        rcases List.mem_cons.mp h with h1 | h1
        · exact absurd h1.symm ha
        · exact h1
      rcases ih hm with ⟨l2, hl2⟩
      exact ⟨a :: l2, by simp [removeFirst, ha, hl2]⟩

theorem removeFirst_sublist {t : String} :
    ∀ {l l2 : List String}, removeFirst t l = some l2 → l2.Sublist l := by
  intro l
  induction l with
  | nil => intro l2 h; exact absurd h (by simp [removeFirst])
  | cons a as ih =>
    intro l2 h
    by_cases ha : a = t
    · simp only [removeFirst, if_pos ha, Option.some.injEq] at h
      exact h ▸ (List.Sublist.refl as).cons a
    · simp only [removeFirst, if_neg ha] at h
      match hr : removeFirst t as with
      | none => rw [hr] at h; exact absurd h (by simp)
      | some l3 =>
        rw [hr] at h
        have h2 : a :: l3 = l2 := by simpa using h
        exact h2 ▸ List.Sublist.cons₂ a (ih hr)

theorem count_eq_one_of_nodup_mem {a : String} {l : List String}
    (hn : l.Nodup) (hm : a ∈ l) : l.count a = 1 := by
  have h1 : l.count a ≤ 1 := List.nodup_iff_count_le_one.mp hn a
  have h2 : 0 < l.count a := List.count_pos_iff.mpr hm
  omega

theorem find_first_of_earlier_fail {α : Type} (p : α → Bool) :
    ∀ (l : List α) (i : Nat) (hi : i < l.length),
      p (l.get ⟨i, hi⟩) = true →
      (∀ (j : Nat) (hj : j < l.length), j < i → p (l.get ⟨j, hj⟩) = false) →
      l.find? p = some (l.get ⟨i, hi⟩)
  | [], i, hi, _, _ => absurd hi (by simp)
  | a :: t, 0, _, hp, _ => by
    simp only [List.get] at hp
    simp [List.find?, hp]
  | a :: t, i + 1, hi, hp, hfirst => by
    have ha : p a = false := hfirst 0 (Nat.succ_pos _) (Nat.succ_pos i)
    have hi2 : i < t.length := Nat.lt_of_succ_lt_succ hi
    have hp2 : p (t.get ⟨i, hi2⟩) = true := hp
    have hfirst2 : ∀ (j : Nat) (hj : j < t.length), j < i → p (t.get ⟨j, hj⟩) = false :=
      fun j hj hji => hfirst (j + 1) (Nat.succ_lt_succ hj) (Nat.succ_lt_succ hji)
    have ht := find_first_of_earlier_fail p t i hi2 hp2 hfirst2
    simp [List.find?, ha, ht]

theorem checkout_none_aux (s : RepoState) (id : String)
    (hInit : s.is_repo_initialized = true)
    (hNone : ∀ c ∈ s.commit_list, c.mensaje ≠ id) :
    checkout_commit id s = (-1, s) := by
  have hfind : s.commit_list.find? (fun c => c.mensaje == id) = none := by
    rw [List.find?_eq_none]
    intro c hc
    simpa using hNone c hc
  simp [checkout_commit, check_repo_initialized, hInit, hfind]

/-- All strings stored in the state fit in a `char[MAX_ARG_LENGTH]` buffer:
every staged name, every name inside a commit snapshot and every commit
message has at most `MAX_ARG_LENGTH - 1` characters. -/
def Bounded (s : RepoState) : Prop :=
  (∀ f ∈ s.file_list, f.length ≤ MAX_ARG_LENGTH - 1) ∧
  ∀ c ∈ s.commit_list,
    (∀ f ∈ c.archivos, f.length ≤ MAX_ARG_LENGTH - 1) ∧
    c.mensaje.length ≤ MAX_ARG_LENGTH - 1

/-- No two staging entries share a name, and no commit snapshot stores the
same name twice. -/
def UniqueNames (s : RepoState) : Prop :=
  s.file_list.Nodup ∧ ∀ c ∈ s.commit_list, c.archivos.Nodup

theorem bounded_init {s : RepoState} (hB : Bounded s) : Bounded (init_repo s).2 := by
  by_cases hi : s.is_repo_initialized <;> simpa [init_repo, hi, Bounded] using hB

theorem bounded_add {s : RepoState} (name : String) (hB : Bounded s) :
    Bounded (add_file name s).2 := by
  by_cases hi : s.is_repo_initialized
  · by_cases hmem : name ∈ s.file_list
    · refine ⟨fun f hf => ?_, fun c hc => ?_⟩
      · simp only [add_file, check_repo_initialized, hi, if_true, if_pos hmem] at hf
        rcases mem_replaceFirst hf with rfl | hfl
        · exact truncArg_length name
        · exact hB.1 f hfl
      · simp only [add_file, check_repo_initialized, hi, if_true, if_pos hmem] at hc
        exact hB.2 c hc
    · refine ⟨fun f hf => ?_, fun c hc => ?_⟩
      · simp only [add_file, check_repo_initialized, hi, if_true, if_neg hmem,
          List.mem_cons] at hf
        rcases hf with rfl | hfl
        · exact truncArg_length name
        · exact hB.1 f hfl
      · simp only [add_file, check_repo_initialized, hi, if_true, if_neg hmem] at hc
        exact hB.2 c hc
  · simpa [add_file, check_repo_initialized, hi] using hB

theorem bounded_remove {s : RepoState} (name : String) (hB : Bounded s) :
    Bounded (remove_file name s).2 := by
  by_cases hi : s.is_repo_initialized
  · cases hr : removeFirst name s.file_list with
    | none => simpa [remove_file, check_repo_initialized, hi, hr] using hB
    | some l2 =>
      refine ⟨fun f hf => ?_, fun c hc => ?_⟩
      · simp only [remove_file, check_repo_initialized, hi, if_true, hr] at hf
        exact hB.1 f ((removeFirst_sublist hr).subset hf)
      · simp only [remove_file, check_repo_initialized, hi, if_true, hr] at hc
        exact hB.2 c hc
  · simpa [remove_file, check_repo_initialized, hi] using hB

theorem bounded_commit {s : RepoState} (msg : String) (hB : Bounded s) :
    Bounded (UGit.commit msg s).2 := by
  by_cases hi : s.is_repo_initialized
  · refine ⟨fun f hf => ?_, fun c hc => ?_⟩
    · simp only [UGit.commit, check_repo_initialized, hi, if_true] at hf
      exact hB.1 f hf
    · simp only [UGit.commit, check_repo_initialized, hi, if_true, List.mem_cons] at hc
      rcases hc with rfl | hcl
      · refine ⟨fun f hf => ?_, truncArg_length msg⟩
        rcases List.mem_map.mp hf with ⟨g, _, rfl⟩
        exact truncArg_length g
      · exact hB.2 c hcl
  · simpa [UGit.commit, check_repo_initialized, hi] using hB

theorem bounded_checkout {s : RepoState} (id : String) (hB : Bounded s) :
    Bounded (checkout_commit id s).2 := by
  by_cases hi : s.is_repo_initialized
  · cases hfind : s.commit_list.find? (fun c => c.mensaje == id) with
    | none => simpa [checkout_commit, check_repo_initialized, hi, hfind] using hB
    | some c =>
      refine ⟨fun f hf => ?_, fun cc hcc => ?_⟩
      · simp only [checkout_commit, check_repo_initialized, hi, if_true, hfind] at hf
        rw [restoreFiles_eq, List.mem_reverse] at hf
        rcases List.mem_map.mp hf with ⟨g, _, rfl⟩
        exact truncArg_length g
      · simp only [checkout_commit, check_repo_initialized, hi, if_true, hfind] at hcc
        exact hB.2 cc hcc
  · simpa [checkout_commit, check_repo_initialized, hi] using hB

theorem add_file_short {s : RepoState} {name : String}
    (hi : s.is_repo_initialized = true) (hlen : name.length ≤ MAX_ARG_LENGTH - 1) :
    (name ∈ s.file_list → (add_file name s).2 = s) ∧
    (name ∉ s.file_list →
      (add_file name s).2 = { s with file_list := name :: s.file_list }) := by
  have ht : truncArg name = name := truncArg_eq_self hlen
  obtain ⟨fl, cl, flag⟩ := s
  have hflag : flag = true := hi
  subst hflag
  constructor
  · intro hm
    simp only [add_file, check_repo_initialized, if_true, if_pos hm, ht,
      replaceFirst_self]
  · intro hm
    simp only [add_file, check_repo_initialized, if_true, if_neg hm, ht]

theorem unique_add {s : RepoState} {name : String}
    (hlen : name.length ≤ MAX_ARG_LENGTH - 1) (hU : UniqueNames s) :
    UniqueNames (add_file name s).2 := by
  by_cases hi : s.is_repo_initialized
  · by_cases hmem : name ∈ s.file_list
    · rw [(add_file_short hi hlen).1 hmem]; exact hU
    · rw [(add_file_short hi hlen).2 hmem]
      exact ⟨List.nodup_cons.mpr ⟨hmem, hU.1⟩, hU.2⟩
  · simpa [add_file, check_repo_initialized, hi] using hU

theorem unique_remove {s : RepoState} (name : String) (hU : UniqueNames s) :
    UniqueNames (remove_file name s).2 := by
  by_cases hi : s.is_repo_initialized
  · cases hr : removeFirst name s.file_list with
    | none => simpa [remove_file, check_repo_initialized, hi, hr] using hU
    | some l2 =>
      refine ⟨?_, fun c hc => ?_⟩
      · simp only [remove_file, check_repo_initialized, hi, if_true, hr]
        exact (removeFirst_sublist hr).nodup hU.1
      · simp only [remove_file, check_repo_initialized, hi, if_true, hr] at hc
        exact hU.2 c hc
  · simpa [remove_file, check_repo_initialized, hi] using hU

theorem unique_commit {s : RepoState} (msg : String) (hU : UniqueNames s)
    (hB : Bounded s) : UniqueNames (UGit.commit msg s).2 := by
  by_cases hi : s.is_repo_initialized
  · refine ⟨?_, fun c hc => ?_⟩
    · simp only [UGit.commit, check_repo_initialized, hi, if_true]
      exact hU.1
    · simp only [UGit.commit, check_repo_initialized, hi, if_true, List.mem_cons] at hc
      rcases hc with rfl | hcl
      · show ((s.file_list.take MAX_FILES).map truncArg).Nodup
        rw [map_truncArg_eq_self
          (fun f hf => hB.1 f (List.take_subset MAX_FILES s.file_list hf))]
        exact (List.take_sublist MAX_FILES s.file_list).nodup hU.1
      · exact hU.2 c hcl
  · simpa [UGit.commit, check_repo_initialized, hi] using hU

theorem unique_checkout {s : RepoState} (id : String) (hU : UniqueNames s)
    (hB : Bounded s) : UniqueNames (checkout_commit id s).2 := by
  by_cases hi : s.is_repo_initialized
  · cases hfind : s.commit_list.find? (fun c => c.mensaje == id) with
    | none => simpa [checkout_commit, check_repo_initialized, hi, hfind] using hU
    | some c =>
      have hc : c ∈ s.commit_list := List.mem_of_find?_eq_some hfind
      refine ⟨?_, fun cc hcc => ?_⟩
      · simp only [checkout_commit, check_repo_initialized, hi, if_true, hfind]
        rw [restoreFiles_eq, map_truncArg_eq_self
          (fun f hf => (hB.2 c hc).1 f (List.filter_subset' c.archivos hf))]
        exact List.nodup_reverse.mpr (List.Nodup.filter _ (hU.2 c hc))
      · simp only [checkout_commit, check_repo_initialized, hi, if_true, hfind] at hcc
        exact hU.2 cc hcc
  · simpa [checkout_commit, check_repo_initialized, hi] using hU

theorem unique_init {s : RepoState} (hU : UniqueNames s) :
    UniqueNames (init_repo s).2 := by
  by_cases hi : s.is_repo_initialized <;> simpa [init_repo, hi, UniqueNames] using hU

/-- Claim C1 (amended): when a commit with message `id` exists, checkout
replaces the staging set with fresh copies of that commit's non-empty stored
file entries, but — because each restored entry is pushed onto the FRONT of
the rebuilt list — the resulting staging traversal order is the REVERSE of
the commit's stored order, not the stored order itself. -/
theorem C1_checkout_restores_reversed (s : RepoState) (id : String) (c : Commit)
    (hInit : s.is_repo_initialized = true)
    (hfind : s.commit_list.find? (fun k => k.mensaje == id) = some c)
    (hne : ∀ f ∈ c.archivos, f ≠ "")
    (hB : ∀ f ∈ c.archivos, f.length ≤ MAX_ARG_LENGTH - 1) :
    checkout_commit id s = (0, { s with file_list := c.archivos.reverse }) := by
  have h1 : c.archivos.filter (fun f => f ≠ "") = c.archivos := by
    rw [List.filter_eq_self]
    intro a ha
    simpa using hne a ha
  have h2 : restoreFiles c = c.archivos.reverse := by
    rw [restoreFiles_eq, h1, map_truncArg_eq_self hB]
  simp [checkout_commit, check_repo_initialized, hInit, hfind, h2]

/-- Witness for C1: in a repository holding the single commit
`⟨["b", "a"], "m"⟩`, checkout of `"m"` succeeds and installs `["a", "b"]`. -/
theorem C1_checkout_restores_reversed_witness :
    (⟨[], [⟨["b", "a"], "m"⟩], true⟩ : RepoState).is_repo_initialized = true ∧
    checkout_commit "m" ⟨[], [⟨["b", "a"], "m"⟩], true⟩ =
      (0, ⟨["a", "b"], [⟨["b", "a"], "m"⟩], true⟩) :=
  ⟨rfl, C1_checkout_restores_reversed ⟨[], [⟨["b", "a"], "m"⟩], true⟩ "m" ⟨["b", "a"], "m"⟩
    rfl (by decide) (by decide) (by decide)⟩

/-- The state reached by `init; add "a"; add "b"; commit "m"` from program
start: staging `["b", "a"]`, one commit storing `["b", "a"]` with message
`"m"`. -/
def c1State : RepoState :=
  (UGit.commit "m" (add_file "b" (add_file "a" (init_repo initialState).2).2).2).2

/-- Counterexample to C1 as stated: after `init; add "a"; add "b";
commit "m"`, the commit found for `"m"` stores the entries in order
`["b", "a"]`, yet checkout of `"m"` leaves the staging traversal order
`["a", "b"]` — the reverse of the stored order, not the stored order. -/
theorem C1_counterexample :
    c1State.commit_list.find? (fun k => k.mensaje == "m") = some ⟨["b", "a"], "m"⟩ ∧
    (checkout_commit "m" c1State).2.file_list = ["a", "b"] ∧
    (["a", "b"] : List String) ≠ ["b", "a"] := by decide

/-- Claim C3: checkout of a message matching no commit fails (returns -1)
and leaves the whole state — in particular the staging set — exactly as it
was. -/
theorem C3_checkout_notfound_no_mutation (s : RepoState) (id : String)
    (hInit : s.is_repo_initialized = true)
    (hNone : ∀ c ∈ s.commit_list, c.mensaje ≠ id) :
    checkout_commit id s = (-1, s) :=
  checkout_none_aux s id hInit hNone

/-- Witness for C3: checkout of `"does-not-exist"` in a repository whose one
commit is named `"m"` fails and preserves the state. -/
theorem C3_checkout_notfound_no_mutation_witness :
    (∀ c ∈ (⟨["f"], [⟨["f"], "m"⟩], true⟩ : RepoState).commit_list,
        c.mensaje ≠ "does-not-exist") ∧
    checkout_commit "does-not-exist" ⟨["f"], [⟨["f"], "m"⟩], true⟩ =
      (-1, ⟨["f"], [⟨["f"], "m"⟩], true⟩) :=
  ⟨by decide, C3_checkout_notfound_no_mutation ⟨["f"], [⟨["f"], "m"⟩], true⟩
    "does-not-exist" rfl (by decide)⟩

/-- Claim C5: every operation other than init, invoked while the repository
is uninitialized, returns -1 (NotInitialized) and leaves the state exactly
as it was. -/
theorem C5_uninitialized_all_fail (s : RepoState)
    (h : s.is_repo_initialized = false) :
    (∀ name, add_file name s = (-1, s)) ∧
    (∀ name, remove_file name s = (-1, s)) ∧
    (∀ msg, UGit.commit msg s = (-1, s)) ∧
    log_commits s = (-1, [], s) ∧
    (∀ id, checkout_commit id s = (-1, s)) ∧
    list_files s = (-1, [], s) := by
  refine ⟨fun name => ?_, fun name => ?_, fun msg => ?_, ?_, fun id => ?_, ?_⟩ <;>
    simp [add_file, remove_file, UGit.commit, log_commits, checkout_commit,
      list_files, check_repo_initialized, h]

/-- Witness for C5: on the uninitialized state holding a staged file and a
commit, every operation returns -1 and preserves the state. -/
theorem C5_uninitialized_all_fail_witness :
    (⟨["a"], [⟨["a"], "m"⟩], false⟩ : RepoState).is_repo_initialized = false ∧
    add_file "x" ⟨["a"], [⟨["a"], "m"⟩], false⟩ =
      (-1, ⟨["a"], [⟨["a"], "m"⟩], false⟩) ∧
    checkout_commit "m" ⟨["a"], [⟨["a"], "m"⟩], false⟩ =
      (-1, ⟨["a"], [⟨["a"], "m"⟩], false⟩) :=
  ⟨rfl,
    (C5_uninitialized_all_fail ⟨["a"], [⟨["a"], "m"⟩], false⟩ rfl).1 "x",
    (C5_uninitialized_all_fail ⟨["a"], [⟨["a"], "m"⟩], false⟩ rfl).2.2.2.2.1 "m"⟩

/-- Claim C6: with more than `MAX_FILES` staged entries, commit succeeds
(returns 0) and the recorded snapshot holds exactly the first `MAX_FILES`
staged entries in traversal order; the rest are silently dropped. -/
theorem C6_commit_capacity_truncates (s : RepoState) (msg : String)
    (hInit : s.is_repo_initialized = true)
    (hB : ∀ f ∈ s.file_list, f.length ≤ MAX_ARG_LENGTH - 1)
    (_hLen : MAX_FILES < s.file_list.length) :
    UGit.commit msg s =
      (0, { s with commit_list :=
        (⟨s.file_list.take MAX_FILES, truncArg msg⟩ : Commit) :: s.commit_list }) := by
  have hmap : (s.file_list.take MAX_FILES).map truncArg = s.file_list.take MAX_FILES :=
    map_truncArg_eq_self
      (fun f hf => hB f (List.take_subset MAX_FILES s.file_list hf))
  simp [UGit.commit, check_repo_initialized, hInit, hmap]

/-- Witness for C6: eleven staged single-letter files; the snapshot records
the first ten and drops the eleventh. -/
theorem C6_commit_capacity_truncates_witness :
    ((⟨["a", "b", "c", "d", "e", "f", "g", "h", "i", "j", "k"], [], true⟩ :
        RepoState).is_repo_initialized = true ∧
      MAX_FILES <
        (⟨["a", "b", "c", "d", "e", "f", "g", "h", "i", "j", "k"], [], true⟩ :
          RepoState).file_list.length) ∧
    UGit.commit "m" ⟨["a", "b", "c", "d", "e", "f", "g", "h", "i", "j", "k"], [], true⟩ =
      (0, ⟨["a", "b", "c", "d", "e", "f", "g", "h", "i", "j", "k"],
        [⟨["a", "b", "c", "d", "e", "f", "g", "h", "i", "j"], "m"⟩], true⟩) :=
  ⟨⟨rfl, by decide⟩, by
    have h := C6_commit_capacity_truncates
      ⟨["a", "b", "c", "d", "e", "f", "g", "h", "i", "j", "k"], [], true⟩ "m"
      rfl (by decide) (by decide)
    simpa using h⟩

/-- Claim C4 (amended): for names that fit the name buffer (length at most
`MAX_ARG_LENGTH - 1`), uniqueness of staging names holds and is preserved by
every operation, and adding such a name twice leaves exactly one entry with
that name.  (For longer names `add_file` compares the untruncated argument
against the truncated stored copy, misses the match, and stages a
duplicate — see the counterexample.) -/
theorem C4_amended_uniqueness (s : RepoState) (hU : UniqueNames s) (hB : Bounded s) :
    (∀ name, name.length ≤ MAX_ARG_LENGTH - 1 → UniqueNames (add_file name s).2) ∧
    (∀ name, UniqueNames (remove_file name s).2) ∧
    (∀ msg, UniqueNames (UGit.commit msg s).2) ∧
    (∀ id, UniqueNames (checkout_commit id s).2) ∧
    UniqueNames (init_repo s).2 ∧
    (∀ name, name.length ≤ MAX_ARG_LENGTH - 1 → s.is_repo_initialized = true →
      ((add_file name (add_file name s).2).2).file_list.count name = 1) := by
  refine ⟨fun name hlen => unique_add hlen hU, fun name => unique_remove name hU,
    fun msg => unique_commit msg hU hB, fun id => unique_checkout id hU hB,
    unique_init hU, fun name hlen hi => ?_⟩
  have hstep : (add_file name s).2.file_list.Nodup ∧ name ∈ (add_file name s).2.file_list ∧
      (add_file name s).2.is_repo_initialized = true := by
    by_cases hmem : name ∈ s.file_list
    · rw [(add_file_short hi hlen).1 hmem]
      exact ⟨hU.1, hmem, hi⟩
    · rw [(add_file_short hi hlen).2 hmem]
      exact ⟨List.nodup_cons.mpr ⟨hmem, hU.1⟩, List.mem_cons_self _ _, hi⟩
  rw [(add_file_short hstep.2.2 hlen).1 hstep.2.1]
  exact count_eq_one_of_nodup_mem hstep.1 hstep.2.1

/-- Witness for C4: in the state with staged `["b"]` and one commit, adding
the short name `"a"` twice yields a staging count of exactly one for `"a"`,
and uniqueness is preserved by a sample operation. -/
theorem C4_amended_uniqueness_witness :
    UniqueNames (⟨["b"], [⟨["b"], "m"⟩], true⟩ : RepoState) ∧
    ((add_file "a" (add_file "a" (⟨["b"], [⟨["b"], "m"⟩], true⟩ : RepoState)).2).2).file_list.count "a" = 1 ∧
    UniqueNames (remove_file "b" (⟨["b"], [⟨["b"], "m"⟩], true⟩ : RepoState)).2 :=
  ⟨by constructor <;> decide,
    (C4_amended_uniqueness ⟨["b"], [⟨["b"], "m"⟩], true⟩
      ⟨by decide, by decide⟩ ⟨by decide, by decide⟩).2.2.2.2.2 "a" (by decide) rfl,
    (C4_amended_uniqueness ⟨["b"], [⟨["b"], "m"⟩], true⟩
      ⟨by decide, by decide⟩ ⟨by decide, by decide⟩).2.1 "b"⟩

/-- A 50-character name: one character too long for the
`char[MAX_ARG_LENGTH]` buffer, so the stored copy keeps only 49 characters. -/
def longName : String := "aaaaaaaaaaaaaaaaaaaaaaaaaaaaaaaaaaaaaaaaaaaaaaaaaa"

/-- The state reached from an initialized empty repository by adding
`longName` twice. -/
def c4State : RepoState :=
  (add_file longName (add_file longName (⟨[], [], true⟩ : RepoState)).2).2

/-- Counterexample to C4 as stated: adding the 50-character `longName` twice
to an initialized empty repository stages TWO entries, both carrying the
same truncated 49-character name — the staging set ends up with two entries
sharing a name, and no entry equals `longName` itself. -/
theorem C4_counterexample :
    longName.length = 50 ∧
    c4State.file_list.length = 2 ∧
    ¬ c4State.file_list.Nodup ∧
    c4State.file_list.count longName = 0 := by decide

/-- Claim C7: checkout resolves the message from the head of history with
first-match-wins, byte-for-byte equality: if position `i` (0 = head =
newest) holds the first commit whose message equals `id`, checkout restores
exactly that commit; if no commit's message equals `id`, it fails. -/
theorem C7_first_match_by_message (s : RepoState) (id : String)
    (hInit : s.is_repo_initialized = true) :
    (∀ (i : Nat) (hi : i < s.commit_list.length),
        (s.commit_list.get ⟨i, hi⟩).mensaje = id →
        (∀ (j : Nat) (hj : j < s.commit_list.length), j < i →
          (s.commit_list.get ⟨j, hj⟩).mensaje ≠ id) →
        checkout_commit id s =
          (0, { s with file_list := restoreFiles (s.commit_list.get ⟨i, hi⟩) })) ∧
    ((∀ c ∈ s.commit_list, c.mensaje ≠ id) → checkout_commit id s = (-1, s)) := by
  constructor
  · intro i hi hp hfirst
    have hfind := find_first_of_earlier_fail (fun c => c.mensaje == id) s.commit_list i hi
      (by simpa using hp)
      (fun j hj hji => by simpa using hfirst j hj hji)
    simp [checkout_commit, check_repo_initialized, hInit, hfind]
  · exact checkout_none_aux s id hInit

/-- Witness for C7: with two commits both named `"m"` (head stores `["n"]`,
older stores `["o"]`), checkout of `"m"` restores the head commit's files. -/
theorem C7_first_match_by_message_witness :
    (⟨["z"], [⟨["n"], "m"⟩, ⟨["o"], "m"⟩], true⟩ : RepoState).commit_list.map
        (fun c => c.mensaje) = ["m", "m"] ∧
    checkout_commit "m" ⟨["z"], [⟨["n"], "m"⟩, ⟨["o"], "m"⟩], true⟩ =
      (0, ⟨["n"], [⟨["n"], "m"⟩, ⟨["o"], "m"⟩], true⟩) := by
  refine ⟨by decide, ?_⟩
  have h := (C7_first_match_by_message ⟨["z"], [⟨["n"], "m"⟩, ⟨["o"], "m"⟩], true⟩ "m"
    rfl).1 0 (by decide) (by decide) (fun j hj hji => absurd hji (Nat.not_lt_zero j))
  rw [h]
  decide

/-- Claim C8: commits are inserted at the head of history and `log_commits`
yields the messages newest first; in particular `commit "m1"; commit "m2"`
from an empty history logs `["m2", "m1"]`. -/
theorem C8_history_newest_first (s : RepoState)
    (hInit : s.is_repo_initialized = true) :
    (∀ msg, ((UGit.commit msg s).2).commit_list =
        (⟨(s.file_list.take MAX_FILES).map truncArg, truncArg msg⟩ : Commit)
          :: s.commit_list) ∧
    (log_commits s).2.1 = s.commit_list.map (fun c => c.mensaje) ∧
    (s.commit_list = [] →
      (log_commits (UGit.commit "m2" (UGit.commit "m1" s).2).2).2.1 = ["m2", "m1"]) := by
  have t1 : truncArg "m1" = "m1" := by decide
  have t2 : truncArg "m2" = "m2" := by decide
  refine ⟨fun msg => ?_, ?_, fun hnil => ?_⟩
  · simp [UGit.commit, check_repo_initialized, hInit]
  · simp [log_commits, check_repo_initialized, hInit]
  · simp [UGit.commit, log_commits, check_repo_initialized, hInit, hnil, t1, t2]

/-- Witness for C8: from the initialized state with staged `["x"]` and empty
history, `commit "m1"; commit "m2"; log` prints `["m2", "m1"]`. -/
theorem C8_history_newest_first_witness :
    (⟨["x"], [], true⟩ : RepoState).commit_list = [] ∧
    (log_commits (UGit.commit "m2"
      (UGit.commit "m1" (⟨["x"], [], true⟩ : RepoState)).2).2).2.1 = ["m2", "m1"] :=
  ⟨rfl, (C8_history_newest_first ⟨["x"], [], true⟩ rfl).2.2 rfl⟩

/-- Claim C9 (amended): the value returned to the caller distinguishes only
success (0) from failure (-1): `add_file` returns 0 both when the name is
new (staged) and when it already exists (replaced), and `remove_file`
returns -1 both when the repository is uninitialized and when the name is
absent; the finer outcomes are signalled only by the messages the operations
print, not by their return values. -/
theorem C9_amended_return_values (s : RepoState) (name : String) :
    (s.is_repo_initialized = true → (add_file name s).1 = 0) ∧
    (s.is_repo_initialized = false → (remove_file name s).1 = -1) ∧
    (s.is_repo_initialized = true → name ∉ s.file_list → (remove_file name s).1 = -1) ∧
    (s.is_repo_initialized = true → name ∈ s.file_list → (remove_file name s).1 = 0) := by
  refine ⟨fun h => ?_, fun h => ?_, fun h hm => ?_, fun h hm => ?_⟩
  · by_cases hmem : name ∈ s.file_list <;>
      simp [add_file, check_repo_initialized, h, hmem]
  · simp [remove_file, check_repo_initialized, h]
  · simp [remove_file, check_repo_initialized, h, removeFirst_eq_none hm]
  · rcases removeFirst_isSome hm with ⟨l2, hl2⟩
    simp [remove_file, check_repo_initialized, h, hl2]

/-- Witness for C9 (amended): concrete return values on initialized and
uninitialized states. -/
theorem C9_amended_return_values_witness :
    (add_file "x" (⟨[], [], true⟩ : RepoState)).1 = 0 ∧
    (remove_file "x" (⟨[], [], false⟩ : RepoState)).1 = -1 ∧
    (remove_file "x" (⟨[], [], true⟩ : RepoState)).1 = -1 ∧
    (remove_file "x" (⟨["x"], [], true⟩ : RepoState)).1 = 0 :=
  ⟨(C9_amended_return_values ⟨[], [], true⟩ "x").1 rfl,
    (C9_amended_return_values ⟨[], [], false⟩ "x").2.1 rfl,
    (C9_amended_return_values ⟨[], [], true⟩ "x").2.2.1 rfl (by decide),
    (C9_amended_return_values ⟨["x"], [], true⟩ "x").2.2.2 rfl (by decide)⟩

/-- Counterexample to C9 as stated: the value `add_file` returns to its
caller is 0 both when `"x"` is newly staged and when it is replaced, and the
value `remove_file` returns is -1 both when the repository is uninitialized
and when the name is simply absent — the caller cannot tell these outcomes
apart from the returned values. -/
theorem C9_counterexample :
    (add_file "x" (⟨[], [], true⟩ : RepoState)).1 =
      (add_file "x" (⟨["x"], [], true⟩ : RepoState)).1 ∧
    (remove_file "x" (⟨[], [], false⟩ : RepoState)).1 =
      (remove_file "x" (⟨[], [], true⟩ : RepoState)).1 := by decide

/-- Claim C10: every stored string (staged names, snapshot names, commit
messages) fits in its `char[MAX_ARG_LENGTH]` buffer — at most
`MAX_ARG_LENGTH - 1 = 49` characters — and every operation preserves this
bound by truncating longer inputs; the start state satisfies it trivially. -/
theorem C10_bounded_strings_invariant (s : RepoState) (hB : Bounded s) :
    Bounded initialState ∧
    Bounded (init_repo s).2 ∧
    (∀ name, Bounded (add_file name s).2) ∧
    (∀ name, Bounded (remove_file name s).2) ∧
    (∀ msg, Bounded (UGit.commit msg s).2) ∧
    (∀ id, Bounded (checkout_commit id s).2) :=
  ⟨⟨by simp [initialState], by simp [initialState]⟩,
    bounded_init hB, fun name => bounded_add name hB, fun name => bounded_remove name hB,
    fun msg => bounded_commit msg hB, fun id => bounded_checkout id hB⟩

/-- Witness for C10: from the empty initialized state, adding the
50-character `longName` stores a 49-character copy, keeping the state
bounded. -/
theorem C10_bounded_strings_invariant_witness :
    Bounded (⟨[], [], true⟩ : RepoState) ∧
    Bounded (add_file longName (⟨[], [], true⟩ : RepoState)).2 ∧
    (add_file longName (⟨[], [], true⟩ : RepoState)).2.file_list.map
      String.length = [49] :=
  ⟨⟨by decide, by decide⟩,
    (C10_bounded_strings_invariant ⟨[], [], true⟩ ⟨by decide, by decide⟩).2.2.1 longName,
    by decide⟩

/-- Claim C2: starting from an initialized repository with empty staging and
empty history, `add "x"; commit "first"; remove "x"; checkout "first"` leaves
the staging listing containing exactly the one entry `"x"`. -/
theorem C2_commit_roundtrip :
    (list_files
      (checkout_commit "first"
        (remove_file "x"
          (UGit.commit "first"
            (add_file "x" (⟨[], [], true⟩ : RepoState)).2).2).2).2).2.1
      = ["x"] := by
  decide

end UGit
